import Mathlib

set_option maxRecDepth 4000

/-!
Verification of the Magpie blocklist aggregator (PigeonSec/magpie).

Shallow embedding conventions:
* Go strings are embedded as `List Char`; for the ASCII data these functions
  accept, Go's byte length and the character count coincide, and Go's
  `for range` rune iteration is list iteration.
* Each of Go's `strings` helpers used by the code is given a small
  executable model (`goTrimSpace`, `goStartsWith`, `goFields`, ...), modelled
  for the ASCII character set the program works with.
* Early `return false`/`return ""` chains are translated to boolean
  conjunction chains or nested conditionals preserving the evaluation order.
* Nondeterministic iteration order of Go maps is modelled as insertion-order
  deduplication; the claims about these functions only concern the
  underlying sets.
-/

namespace Magpie

/-- Embed a Lean string literal as the `List Char` representation used for
Go strings throughout this development. -/
def strL (s : String) : List Char := s.toList

/-- Whitespace test used by Go's `strings.TrimSpace` / `strings.Fields`,
modelled for the ASCII whitespace characters. -/
def goIsSpace (c : Char) : Bool :=
  c = ' ' || c = '\t' || c = '\n' || c = '\x0b' || c = '\x0c' || c = '\r'

/-- Drop leading whitespace (the left half of `strings.TrimSpace`). -/
def goTrimLeft : List Char → List Char
  | [] => []
  | c :: cs => if goIsSpace c then goTrimLeft cs else c :: cs

/-- Model of Go `strings.TrimSpace`: drop leading and trailing whitespace. -/
def goTrimSpace (s : List Char) : List Char :=
  ((goTrimLeft ((goTrimLeft s).reverse)).reverse)

/-- Model of Go `strings.HasPrefix pat s` (pattern argument first). -/
def goStartsWith : List Char → List Char → Bool
  | [], _ => true
  | _ :: _, [] => false
  | p :: ps, c :: cs => p = c && goStartsWith ps cs

/-- Model of Go `strings.HasSuffix pat s` (pattern argument first). -/
def goEndsWith (pat s : List Char) : Bool :=
  goStartsWith pat.reverse s.reverse

/-- Model of Go `strings.TrimPrefix pat s`. -/
def goTrimHead (pat s : List Char) : List Char :=
  if goStartsWith pat s then s.drop pat.length else s

/-- Model of Go `strings.TrimSuffix pat s`. -/
def goTrimTail (pat s : List Char) : List Char :=
  if goEndsWith pat s then s.take (s.length - pat.length) else s

/-- Model of the Go idiom
`if idx := strings.Index(s, c); idx != -1 { s = s[:idx] }`:
truncate at the first occurrence of character `c` (identity when absent). -/
def goTakeUntil (c : Char) : List Char → List Char
  | [] => []
  | x :: xs => if x = c then [] else x :: goTakeUntil c xs

/-- Model of Go `strings.Contains s string(c)` for a one-character pattern. -/
def goContains (c : Char) : List Char → Bool
  | [] => false
  | x :: xs => x = c || goContains c xs

/-- Model of Go `strings.Count s string(c)` for a one-character pattern. -/
def goCount (c : Char) : List Char → Nat
  | [] => 0
  | x :: xs => (if x = c then 1 else 0) + goCount c xs

/-- ASCII lower-casing of a character (Go `strings.ToLower` acts on the
ASCII letters for the data handled here). -/
def goToLowerChar (c : Char) : Char :=
  if 'A' ≤ c && c ≤ 'Z' then Char.ofNat (c.toNat + 32) else c

/-- Model of Go `strings.ToLower`. -/
def goToLower (s : List Char) : List Char := s.map goToLowerChar

/-- Helper for `goSplitOnChar`: returns the first field together with the
remaining fields of the split. -/
def splitAux (sep : Char) : List Char → List Char × List (List Char)
  | [] => ([], [])
  | c :: cs =>
    let r := splitAux sep cs
    if c = sep then ([], r.1 :: r.2) else (c :: r.1, r.2)

/-- Model of Go `strings.Split s string(sep)` for a one-character separator.
The result is always nonempty. -/
def goSplitOnChar (sep : Char) (s : List Char) : List (List Char) :=
  (splitAux sep s).1 :: (splitAux sep s).2

/-- Helper for `goFields`: split on a character predicate. -/
def splitByAux (p : Char → Bool) : List Char → List Char × List (List Char)
  | [] => ([], [])
  | c :: cs =>
    let r := splitByAux p cs
    if p c then ([], r.1 :: r.2) else (c :: r.1, r.2)

/-- Model of Go `strings.Fields`: the maximal runs of non-whitespace
characters, in order. -/
def goFields (s : List Char) : List (List Char) :=
  (((splitByAux goIsSpace s).1 :: (splitByAux goIsSpace s).2).filter
    (fun w => !w.isEmpty))

/-! ### Character classes of `internal/fetcher/fetcher.go` -/

/-- `(char >= 'a' && char <= 'z') || (char >= 'A' && char <= 'Z')` -/
def isAlphaCh (c : Char) : Bool :=
  ('a' ≤ c && c ≤ 'z') || ('A' ≤ c && c ≤ 'Z')

/-- `char >= '0' && char <= '9'` -/
def isDigitCh (c : Char) : Bool := '0' ≤ c && c ≤ '9'

/-- The character test of the label loop in `IsValidDomain`
(`fetcher.go:343-350`): ASCII letter, digit, or hyphen. -/
def isLabelChar (c : Char) : Bool := isAlphaCh c || isDigitCh c || c = '-'

/-- Alphanumeric test, the `[a-zA-Z0-9]` class of `domainRegex`. -/
def isAlnumCh (c : Char) : Bool := isAlphaCh c || isDigitCh c

/-! ### `internal/fetcher/fetcher.go` constants -/

def maxDomainLength : Nat := 253
def maxLabelLength : Nat := 63
def minDomainLength : Nat := 3

/-! ### cleanDomain (fetcher.go:260-297) -/

/-- Embedding of `cleanDomain` (fetcher.go:260-297): trim, lower-case,
strip scheme / `www.` / trailing dot / path / query / port / wildcard
markers, and require a dot in the remainder. -/
def cleanDomain (d0 : List Char) : List Char :=
  let d1 := goTrimSpace d0
  let d2 := goToLower d1
  let d3 := goTrimHead (strL "http://") d2
  let d4 := goTrimHead (strL "https://") d3
  let d5 := goTrimHead (strL "www.") d4
  let d6 := goTrimTail (strL ".") d5
  let d7 := goTakeUntil '/' d6
  let d8 := goTakeUntil '?' d7
  let d9 := goTakeUntil ':' d8
  let d10 := goTrimHead (strL "*.") d9
  let d11 := goTrimHead (strL ".") d10
  let d := goTrimSpace d11
  if d.isEmpty || !goContains '.' d then [] else d

/-! ### ParseDomain (fetcher.go:183-257) -/

/-- Modelled from `net/url.Parse` (standard library, called at
fetcher.go:245): the `Host` of an `http://`/`https://` URL is the authority
component - the text between the scheme separator and the first `/`, `?` or
`#` - with any userinfo up to the last `@` removed.  Parse failures are not
modelled; the strings reaching this branch of `ParseDomain` are trimmed and
space-free. -/
def goURLHost (s : List Char) : List Char :=
  let afterScheme :=
    if goStartsWith (strL "http://") s then s.drop 7
    else if goStartsWith (strL "https://") s then s.drop 8
    else s
  let authority := afterScheme.takeWhile (fun c => !(c = '/' || c = '?' || c = '#'))
  (goSplitOnChar '@' authority).getLastD []

/-- Embedding of `ParseDomain` (fetcher.go:183-257): extract a domain from a
blocklist line (AdBlock, hosts-file, IP-pair, URL, or plain formats). -/
def ParseDomain (line0 : List Char) : List Char :=
  let la := goTakeUntil '#' line0
  let lb := goTakeUntil ';' la
  let line := goTrimSpace lb
  if line.isEmpty then []
  else if goStartsWith (strL "||") line then
    cleanDomain (goTakeUntil '^' (goTrimHead (strL "||") line))
  else if goStartsWith (strL "@@||") line then []
  else if (goStartsWith (strL "0.0.0.0 ") line || goStartsWith (strL "127.0.0.1 ") line)
      && 2 ≤ (goFields line).length then
    cleanDomain ((goFields line).getD 1 [])
  else if (goStartsWith (strL "::") line || goStartsWith (strL "::1") line)
      && 2 ≤ (goFields line).length then
    cleanDomain ((goFields line).getD 1 [])
  else if goContains ' ' line && 2 ≤ (goFields line).length
      && goCount '.' ((goFields line).getD 0 []) = 3 then
    cleanDomain ((goFields line).getD 1 [])
  else if goContains ' ' line && 2 ≤ (goFields line).length
      && goContains ':' ((goFields line).getD 0 []) then
    cleanDomain ((goFields line).getD 1 [])
  else if (goStartsWith (strL "http://") line || goStartsWith (strL "https://") line)
      && !(goURLHost line).isEmpty then
    cleanDomain (goTakeUntil ':' (goURLHost line))
  else
    cleanDomain line

/-! ### IsValidDomain (fetcher.go:300-361) -/

/-- The per-label validation of the loop at fetcher.go:332-351: nonempty,
at most 63 characters, no leading/trailing hyphen, letters/digits/hyphens
only. -/
def validLabel (label : List Char) : Bool :=
  !decide (label.length = 0) && !decide (label.length > maxLabelLength)
  && !goStartsWith (strL "-") label && !goEndsWith (strL "-") label
  && label.all isLabelChar

/-- One label group of `domainRegex`
(`[a-zA-Z0-9]([a-zA-Z0-9\-]{0,61}[a-zA-Z0-9])?`): first character
alphanumeric; if longer, at most 62 further characters that are
letters/digits/hyphens, the last of which is alphanumeric. -/
def regexLabelMatch : List Char → Bool
  | [] => false
  | c :: rest =>
    isAlnumCh c &&
    (match rest.getLast? with
     | none => true
     | some cl => decide (rest.length ≤ 62) && rest.dropLast.all isLabelChar && isAlnumCh cl)

/-- The `[a-zA-Z]{2,}$` tail of `domainRegex`: at least two characters, all
alphabetic. -/
def regexTLDMatch (t : List Char) : Bool :=
  decide (2 ≤ t.length) && t.all isAlphaCh

/-- Model of `domainRegex.MatchString` for the anchored pattern
`^([a-zA-Z0-9]([a-zA-Z0-9\-]{0,61}[a-zA-Z0-9])?\.)+[a-zA-Z]{2,}$`
(fetcher.go:26).  Neither the label class nor the TLD class contains `.`,
so any match decomposes the string exactly at its dots: the pattern matches
iff the dot-split has at least two fields, every field but the last matches
the label group, and the last field matches the TLD class. -/
def domainRegexMatch (s : List Char) : Bool :=
  let labels := goSplitOnChar '.' s
  decide (2 ≤ labels.length)
  && labels.dropLast.all regexLabelMatch
  && regexTLDMatch (labels.getLastD [])

/-- Embedding of `IsValidDomain` (fetcher.go:300-361).  The Go function is a
chain of early `return false` guards followed by a final regex check; the
chain is translated conjunct by conjunct in source order.  Go's byte length
is modelled as character count (they agree on ASCII, and non-ASCII strings
fail the label character check in both readings). -/
def IsValidDomain (domain : List Char) : Bool :=
  !domain.isEmpty
  && decide (minDomainLength ≤ domain.length)
  && decide (domain.length ≤ maxDomainLength)
  && goContains '.' domain
  && !goContains ' ' domain && !goContains '\t' domain
  && !goStartsWith (strL "-") domain && !goEndsWith (strL "-") domain
  && !goStartsWith (strL ".") domain && !goEndsWith (strL ".") domain
  && decide (2 ≤ (goSplitOnChar '.' domain).length)
  && (goSplitOnChar '.' domain).all validLabel
  && decide (2 ≤ ((goSplitOnChar '.' domain).getLastD []).length)
  && domainRegexMatch domain

/-! ### Validator (src/unnamed/part_003, package validator) -/

/-- The outcome of the three parallel resolver queries launched by
`ValidateDNS` for one domain: `none` models a lookup error, `some`
the returned records. -/
structure ResolverAnswers where
  ip4 : Option (List Nat)
  ip6 : Option (List Nat)
  cname : Option (List Char)
deriving DecidableEq

/-- Validator state relevant to the embedded methods: the DNS result cache
(domain, cached boolean, entry timestamp), the TTL, and the cache switch.
Timestamps and the TTL are in seconds (Go stores nanoseconds; only
differences against the TTL are ever inspected). -/
structure ValidatorState where
  cache : List (List Char × Bool × Nat)
  cacheTTL : Nat
  useCache : Bool
deriving DecidableEq

/-- `NewValidatorWithResolvers` (part_003:39-116): empty cache, 5-minute
TTL, caching as configured. -/
def NewValidator (enableCache : Bool) : ValidatorState :=
  { cache := [], cacheTTL := 300, useCache := enableCache }

/-- Go map read `v.cache[domain]`, on the association-list model. -/
def cacheFind (cache : List (List Char × Bool × Nat)) (d : List Char) :
    Option (Bool × Nat) :=
  match cache with
  | [] => none
  | (k, v, ts) :: rest => if k = d then some (v, ts) else cacheFind rest d

/-- Go map write `v.cache[domain] = &dnsResult{valid, now}`. -/
def cacheInsert (cache : List (List Char × Bool × Nat)) (d : List Char)
    (v : Bool) (ts : Nat) : List (List Char × Bool × Nat) :=
  match cache with
  | [] => [(d, v, ts)]
  | (k, e, t) :: rest =>
    if k = d then (d, v, ts) :: rest else (k, e, t) :: cacheInsert rest d v ts

/-- The value `valid` computed by the result-collection loop of
`ValidateDNS` (part_003:155-184): true iff any of the three goroutines
reported a valid record.  Each goroutine's `valid` field mirrors the Go
expression (`err == nil && len(ips) > 0`, and for CNAME additionally
`cname != "" && cname != domain && cname != domain+"."`); the loop exits
on the first success, so the outcome is the disjunction regardless of
channel arrival order. -/
def dnsLookupValid (domain : List Char) (ans : ResolverAnswers) : Bool :=
  (match ans.ip4 with | some ips => !ips.isEmpty | none => false)
  || (match ans.ip6 with | some ips => !ips.isEmpty | none => false)
  || (match ans.cname with
      | some cn => !cn.isEmpty && !decide (cn = domain) && !decide (cn = domain ++ ['.'])
      | none => false)

/-- Result of one `ValidateDNS` call: the returned pair `(valid, err)`, the
validator state after the call, and the number of resolver queries issued
(0 on a cache hit, 3 otherwise). -/
structure DNSCall where
  valid : Bool
  err : Option Unit
  state : ValidatorState
  lookups : Nat
deriving DecidableEq

/-- The cache-miss path of `ValidateDNS` (part_003:142-196): issue the three
parallel lookups, cache the outcome with the current time when caching is
enabled, and return `(valid, nil)`. -/
def dnsFreshLookup (st : ValidatorState) (now : Nat) (domain : List Char)
    (ans : ResolverAnswers) : DNSCall :=
  let valid := dnsLookupValid domain ans
  let st' := if st.useCache
    then { st with cache := cacheInsert st.cache domain valid now }
    else st
  ⟨valid, none, st', 3⟩

/-- Embedding of `ValidateDNS` (part_003:128-197): consult the cache first
(an entry younger than the TTL is returned as-is with no lookups), fall
back to the fresh-lookup path otherwise. -/
def ValidateDNS (st : ValidatorState) (now : Nat) (domain : List Char)
    (ans : ResolverAnswers) : DNSCall :=
  if st.useCache then
    match cacheFind st.cache domain with
    | some (v, ts) =>
      if now - ts < st.cacheTTL then ⟨v, none, st, 0⟩
      else dnsFreshLookup st now domain ans
    | none => dnsFreshLookup st now domain ans
  else dnsFreshLookup st now domain ans

/-- One HTTP leg of `ValidateHTTP` (part_003:219-257): `none` models a
request/transport error, `some code` a response; a leg is valid iff a
response arrived with status below 500. -/
def httpLegValid (r : Option Nat) : Bool :=
  match r with
  | some code => decide (code < 500)
  | none => false

/-- Embedding of `ValidateHTTP` (part_003:200-268): HTTPS and HTTP HEAD
probes run in parallel; the call returns `(true, nil)` if either leg is
valid and `(false, nil)` otherwise - never an error. -/
def ValidateHTTP (https http : Option Nat) : Bool × Option Unit :=
  (httpLegValid https || httpLegValid http, none)

/-- Result of one `ValidateFull` call, with an observation flag recording
whether the HTTP stage was reached. -/
structure FullCall where
  valid : Bool
  err : Option Unit
  state : ValidatorState
  ranHTTP : Bool
deriving DecidableEq

/-- Embedding of `ValidateFull` (part_003:270-281): DNS first; on DNS error
or failure return `(false, err)` without touching HTTP; otherwise the
result is the HTTP outcome with a nil error. -/
def ValidateFull (st : ValidatorState) (now : Nat) (domain : List Char)
    (ans : ResolverAnswers) (https http : Option Nat) : FullCall :=
  let dc := ValidateDNS st now domain ans
  if dc.err ≠ none ∨ dc.valid = false then ⟨false, dc.err, dc.state, false⟩
  else ⟨(ValidateHTTP https http).1, none, dc.state, true⟩

/-! ### Fetcher retry loop (fetcher.go:76-111) -/

/-- Errors of the fetch path.  `failedAfter n e` models
`fmt.Errorf("failed after %d attempts: %w", n, e)`; `ctxCanceled` models
`ctx.Err()`; `requestFailed` stands for the pre-response failure modes. -/
inductive FetchError where
  | httpStatus (code : Nat)
  | requestFailed
  | scanFailed
  | ctxCanceled
  | failedAfter (attempts : Nat) (last : FetchError)
deriving DecidableEq

instance {ε α : Type} [DecidableEq ε] [DecidableEq α] : DecidableEq (Except ε α)
  | .ok a, .ok b =>
    if h : a = b then .isTrue (h ▸ rfl) else .isFalse fun hh => h (Except.ok.inj hh)
  | .ok _, .error _ => .isFalse Except.noConfusion
  | .error _, .ok _ => .isFalse Except.noConfusion
  | .error e, .error f =>
    if h : e = f then .isTrue (h ▸ rfl) else .isFalse fun hh => h (Except.error.inj hh)

/-- Observable outcome of one `Fetch` call: the returned value, the number
of attempts made, and the completed backoff waits (in nanoseconds), in
order. -/
structure FetchRun where
  result : Except FetchError (List (List Char))
  attemptsMade : Nat
  waits : List Nat
deriving DecidableEq

/-- `backoff := time.Duration(1<<uint(attempt-1)) * time.Second` in
nanoseconds. -/
def backoffNanos (attempt : Nat) : Nat := 2 ^ (attempt - 1) * 1000000000

/-- `sleepTime := backoff + jitter`, capped at 30 seconds
(fetcher.go:94-99). -/
def sleepNanos (attempt jitter : Nat) : Nat :=
  min (backoffNanos attempt + jitter) 30000000000

/-- The retry loop of `Fetch` (fetcher.go:79-108).  `res k` is the outcome
of attempt `k` (`fetchAttempt`), `jit k` the random jitter drawn before the
wait following attempt `k` (`rand.Int63n(backoff/2)`), and `canc k` whether
the context is cancelled during that wait (the `ctx.Done()` arm of the
`select` fires first).  `remaining` counts the attempts still allowed,
`attempt` is the 1-based attempt number, and the third argument threads
`lastErr`. -/
def fetchLoop (res : Nat → Except FetchError (List (List Char)))
    (jit : Nat → Nat) (canc : Nat → Bool) (n : Nat) :
    Nat → Nat → FetchError → FetchRun
  | 0, _, lastErr => ⟨.error (.failedAfter n lastErr), 0, []⟩
  | remaining + 1, attempt, _ =>
    match res attempt with
    | .ok doms => ⟨.ok doms, 1, []⟩
    | .error e =>
      if remaining = 0 then ⟨.error (.failedAfter n e), 1, []⟩
      else if canc attempt then ⟨.error .ctxCanceled, 1, []⟩
      else
        let r := fetchLoop res jit canc n remaining (attempt + 1) e
        ⟨r.result, r.attemptsMade + 1, sleepNanos attempt (jit attempt) :: r.waits⟩

/-- Embedding of `Fetch` (fetcher.go:76-111) for a fetcher configured with
`n` retry attempts. -/
def Fetch (res : Nat → Except FetchError (List (List Char)))
    (jit : Nat → Nat) (canc : Nat → Bool) (n : Nat) : FetchRun :=
  fetchLoop res jit canc n n 1 .requestFailed

/-! ### fetchAttempt response handling and body parsing
(fetcher.go:113-180) -/

/-- Membership test on the accumulated domain list (Go map key test). -/
def elemB (d : List Char) : List (List Char) → Bool
  | [] => false
  | x :: xs => x = d || elemB d xs

/-- Go map insertion `domainMap[domain] = true`, modelled as
insertion-order deduplication (map iteration order is not deterministic;
the claims only concern the underlying set). -/
def dedupInsert (acc : List (List Char)) (d : List Char) : List (List Char) :=
  if elemB d acc then acc else acc ++ [d]

/-- The comment/blank filter of the body scan loop (fetcher.go:158). -/
def skipBodyLine (line : List Char) : Bool :=
  line.isEmpty || goStartsWith (strL "#") line
  || goStartsWith (strL "!") line || goStartsWith (strL ";") line

/-- The body-parsing loop of `fetchAttempt` (fetcher.go:142-177): trim each
line, skip blanks and comments, keep `ParseDomain` results that are
nonempty and pass `IsValidDomain`, deduplicated. -/
def parseBodyLines (lines : List (List Char)) : List (List Char) :=
  lines.foldl (fun acc raw =>
    let line := goTrimSpace raw
    if skipBodyLine line then acc
    else
      let d := ParseDomain line
      if !d.isEmpty && IsValidDomain d then dedupInsert acc d else acc) []

/-- Embedding of `fetchAttempt` (fetcher.go:113-180) from the point a
response has been received, as a function of its status code and body
lines: any status other than 200 (`http.StatusOK`) is an error
(fetcher.go:129-131); a 200 response has its body parsed for domains.
The pre-response failure modes (request construction, transport) are
separate error paths not modelled here. -/
def fetchAttemptResponse (status : Nat) (bodyLines : List (List Char)) :
    Except FetchError (List (List Char)) :=
  if status ≠ 200 then .error (.httpStatus status)
  else .ok (parseBodyLines bodyLines)

/-- Go `err == nil` observation on an `Except` result. -/
def exceptOk : Except ε α → Bool
  | .ok _ => true
  | .error _ => false

/-- The successful value of an `Except` result, if any. -/
def exceptValue : Except ε α → Option α
  | .ok a => some a
  | .error _ => none

/-! ### loadURLs (cmd/magpie/main.go:891-928) -/

/-- Errors of `loadURLs`: a non-comment line without an `http://`/`https://`
scheme (with its 1-based line number), or an empty resulting URL list. -/
inductive LoadError where
  | invalidURL (lineNum : Nat) (line : List Char)
  | noValidURLs
deriving DecidableEq

/-- `strings.HasPrefix(line, "http://") || strings.HasPrefix(line,
"https://")` (main.go:912). -/
def goodURL (l : List Char) : Bool :=
  goStartsWith (strL "http://") l || goStartsWith (strL "https://") l

/-- The blank/comment filter of `loadURLs` (main.go:907). -/
def skipSourceLine (line : List Char) : Bool :=
  line.isEmpty || goStartsWith (strL "#") line

/-- The scan loop of `loadURLs`: the second argument is the number of lines
already consumed, so the current line is numbered `lineNum + 1`. -/
def loadURLsAux : List (List Char) → Nat → Except LoadError (List (List Char))
  | [], _ => .ok []
  | raw :: rest, lineNum =>
    let line := goTrimSpace raw
    if skipSourceLine line then loadURLsAux rest (lineNum + 1)
    else if !goodURL line then .error (.invalidURL (lineNum + 1) line)
    else
      match loadURLsAux rest (lineNum + 1) with
      | .error e => .error e
      | .ok us => .ok (line :: us)

/-- Embedding of `loadURLs` (main.go:891-928) on the file's lines: one bad
line rejects the whole file, and zero surviving URLs is also an error. -/
def loadURLs (lines : List (List Char)) : Except LoadError (List (List Char)) :=
  match loadURLsAux lines 0 with
  | .error e => .error e
  | .ok [] => .error .noValidURLs
  | .ok us => .ok us

/-- The trimmed non-blank, non-comment lines of the source file, in order:
the lines `loadURLs` subjects to the scheme check. -/
def keptLines (lines : List (List Char)) : List (List Char) :=
  (lines.map goTrimSpace).filter (fun l => !skipSourceLine l)

/-! ### validateDomains and the run skeleton
(cmd/magpie/main.go:930-1045 and 644-717) -/

/-- The per-domain decision of the worker loop in `validateDomains`
(main.go:979-996): `ValidateFull` when HTTP validation is enabled, else
`ValidateDNS` when DNS validation is enabled, else the initial
`valid = false`; a domain is kept iff `err == nil && valid`.  The
per-domain call outcomes are abstracted as functions from the domain to
the returned `(valid, err)` pair. -/
def validationDecision (enableHTTP enableDNS : Bool)
    (fullRes dnsRes : List Char → Bool × Option Unit) (d : List Char) : Bool :=
  let r := if enableHTTP then fullRes d else if enableDNS then dnsRes d else (false, none)
  decide (r.2 = none) && r.1

/-- Embedding of `validateDomains` (main.go:930-1045): the kept domains are
exactly those passing `validationDecision` (workers partition the domains
and concatenate local results, so the output is a permutation of this
filter; the claims concern the underlying set). -/
def validateDomains (enableHTTP enableDNS : Bool)
    (fullRes dnsRes : List Char → Bool × Option Unit)
    (domains : List (List Char)) : List (List Char) :=
  domains.filter (validationDecision enableHTTP enableDNS fullRes dnsRes)

/-- The validation dispatch of `runWithLogs` (main.go:657-714): run
`validateDomains` when either validation mode is enabled; otherwise copy
the whole domain set. -/
def pipelineValidDomains (enableDNS enableHTTP : Bool)
    (fullRes dnsRes : List Char → Bool × Option Unit)
    (allDomains : List (List Char)) : List (List Char) :=
  if enableDNS || enableHTTP then
    validateDomains enableHTTP enableDNS fullRes dnsRes allDomains
  else allDomains

/-- The fetch-phase collector (main.go:619-628): domains streamed from the
successful fetches are deduplicated into the global set; failed fetches
contribute nothing. -/
def collectDomains (results : List (Except FetchError (List (List Char)))) :
    List (List Char) :=
  results.foldl (fun acc r =>
    match r with
    | .error _ => acc
    | .ok doms => doms.foldl dedupInsert acc) []

/-- The fatal condition of the run skeleton. -/
inductive RunError where
  | noDomainsFound
deriving DecidableEq

/-- Skeleton of `runWithLogs` after the fetch phase (main.go:644-717):
if the fetch phase produced no domains, `log.Fatalf("No domains found from
any source")` terminates the process - modelled as an error result, with
no validation performed and no output produced; otherwise the validated
set is written as output. -/
def runAggregation (results : List (Except FetchError (List (List Char))))
    (enableDNS enableHTTP : Bool)
    (fullRes dnsRes : List Char → Bool × Option Unit) :
    Except RunError (List (List Char)) :=
  let allDomains := collectDomains results
  if allDomains.length = 0 then .error .noDomainsFound
  else .ok (pipelineValidDomains enableDNS enableHTTP fullRes dnsRes allDomains)

/-! ### Spec-side definitions

These two definitions follow the wording of the specification (claim C2),
to be compared with the source-derived `IsValidDomain`. -/

/-- A label as the spec describes it: 1 to 63 characters, letters, digits
and hyphens only, no leading or trailing hyphen. -/
def specLabelOK (l : List Char) : Bool :=
  decide (1 ≤ l.length) && decide (l.length ≤ 63)
  && l.all (fun c => isAlphaCh c || isDigitCh c || c = '-')
  && !decide (l.head? = some '-') && !decide (l.getLast? = some '-')

/-- A valid domain as the spec describes it: length 3-253, at least one
dot, at least two dot-separated labels each satisfying `specLabelOK`, and
a final (TLD) label of at least 2 alphabetic characters. -/
def specValidDomain (s : List Char) : Bool :=
  decide (3 ≤ s.length) && decide (s.length ≤ 253)
  && goContains '.' s
  && decide (2 ≤ (goSplitOnChar '.' s).length)
  && (goSplitOnChar '.' s).all specLabelOK
  && decide (2 ≤ ((goSplitOnChar '.' s).getLastD []).length)
  && ((goSplitOnChar '.' s).getLastD []).all isAlphaCh

/-- The sequence of backoff waits `fetchLoop` performs: `count` waits, the
first following attempt number `attempt`. -/
def backoffWaits (jit : Nat → Nat) : Nat → Nat → List Nat
  | 0, _ => []
  | count + 1, attempt =>
    sleepNanos attempt (jit attempt) :: backoffWaits jit count (attempt + 1)

/-- Interleave a separator before each word and concatenate: the
continuation of `joinTail` below reassembles a split string. -/
def joinTail (sep : Char) : List (List Char) → List Char
  | [] => []
  | w :: ws => sep :: (w ++ joinTail sep ws)

/-! ## Infrastructure lemmas -/

theorem goContains_iff_mem {c : Char} {s : List Char} :
    goContains c s = true ↔ c ∈ s := by
  induction s with
  | nil => simp [goContains]
  | cons x xs ih =>
    simp only [goContains, Bool.or_eq_true, decide_eq_true_eq, ih, List.mem_cons]
    exact ⟨fun h => h.imp Eq.symm id, fun h => h.imp Eq.symm id⟩

theorem goStartsWith_mem {p s : List Char} (h : goStartsWith p s = true) :
    ∀ c ∈ p, c ∈ s := by
  induction p generalizing s with
  | nil => simp
  | cons a ps ih =>
    cases s with
    | nil => simp [goStartsWith] at h
    | cons b bs =>
      simp only [goStartsWith, Bool.and_eq_true, decide_eq_true_eq] at h
      intro c hc
      rcases List.mem_cons.mp hc with rfl | hc'
      · exact h.1 ▸ List.mem_cons_self _ _
      · exact List.mem_cons_of_mem _ (ih h.2 c hc')

theorem goStartsWith_single_iff {c : Char} {s : List Char} :
    goStartsWith [c] s = true ↔ s.head? = some c := by
  cases s with
  | nil => simp [goStartsWith]
  | cons b bs =>
    simp only [goStartsWith, Bool.and_true, decide_eq_true_eq, List.head?_cons,
      Option.some.injEq]
    exact ⟨fun h => h.symm, fun h => h.symm⟩

theorem goEndsWith_single_iff {c : Char} {s : List Char} :
    goEndsWith [c] s = true ↔ s.getLast? = some c := by
  rw [goEndsWith, show ([c] : List Char).reverse = [c] from rfl,
    goStartsWith_single_iff, List.head?_reverse]

theorem goTrimLeft_eq_self {s : List Char}
    (h : ∀ c ∈ s, goIsSpace c = false) : goTrimLeft s = s := by
  cases s with
  | nil => rfl
  | cons a as => simp [goTrimLeft, h a (List.mem_cons_self _ _)]

theorem goTrimSpace_eq_self {s : List Char}
    (h : ∀ c ∈ s, goIsSpace c = false) : goTrimSpace s = s := by
  rw [goTrimSpace, goTrimLeft_eq_self h,
    goTrimLeft_eq_self (fun c hc => h c (List.mem_reverse.mp hc)),
    List.reverse_reverse]

theorem goTakeUntil_eq_self {c : Char} {s : List Char}
    (h : goContains c s = false) : goTakeUntil c s = s := by
  induction s with
  | nil => rfl
  | cons x xs ih =>
    simp only [goContains, Bool.or_eq_false_iff, decide_eq_false_iff_not] at h
    simp [goTakeUntil, h.1, ih h.2]

theorem goTrimHead_eq_self {pat s : List Char}
    (h : goStartsWith pat s = false) : goTrimHead pat s = s := by
  simp [goTrimHead, h]

theorem goTrimTail_eq_self {pat s : List Char}
    (h : goEndsWith pat s = false) : goTrimTail pat s = s := by
  simp [goTrimTail, h]

theorem splitAux_cons_sep {sep : Char} {cs : List Char} :
    splitAux sep (sep :: cs) = ([], (splitAux sep cs).1 :: (splitAux sep cs).2) := by
  simp [splitAux]

theorem splitAux_cons_ne {sep c : Char} {cs : List Char} (h : ¬ c = sep) :
    splitAux sep (c :: cs) = (c :: (splitAux sep cs).1, (splitAux sep cs).2) := by
  simp [splitAux, h]

theorem splitAux_join (sep : Char) (s : List Char) :
    (splitAux sep s).1 ++ joinTail sep (splitAux sep s).2 = s := by
  induction s with
  | nil => rfl
  | cons c cs ih =>
    by_cases h : c = sep
    · subst h; rw [splitAux_cons_sep]; simpa [joinTail] using ih
    · rw [splitAux_cons_ne h]; simpa [joinTail] using congrArg (c :: ·) ih

theorem splitAux_words (sep : Char) (s : List Char) :
    (∀ c ∈ (splitAux sep s).1, c ∈ s ∧ c ≠ sep)
    ∧ (∀ w ∈ (splitAux sep s).2, ∀ c ∈ w, c ∈ s ∧ c ≠ sep) := by
  induction s with
  | nil => exact ⟨fun c hc => absurd hc (List.not_mem_nil c),
      fun w hw => absurd hw (List.not_mem_nil w)⟩
  | cons x cs ih =>
    obtain ⟨ih1, ih2⟩ := ih
    by_cases h : x = sep
    · subst h
      rw [splitAux_cons_sep]
      refine ⟨fun c hc => absurd hc (List.not_mem_nil c), ?_⟩
      intro w hw c hc
      rcases List.mem_cons.mp hw with rfl | hw'
      · obtain ⟨h1, h2⟩ := ih1 c hc
        exact ⟨List.mem_cons_of_mem _ h1, h2⟩
      · obtain ⟨h1, h2⟩ := ih2 w hw' c hc
        exact ⟨List.mem_cons_of_mem _ h1, h2⟩
    · rw [splitAux_cons_ne h]
      constructor
      · intro c hc
        rcases List.mem_cons.mp hc with rfl | hc'
        · exact ⟨List.mem_cons_self _ _, h⟩
        · obtain ⟨h1, h2⟩ := ih1 c hc'
          exact ⟨List.mem_cons_of_mem _ h1, h2⟩
      · intro w hw c hc
        obtain ⟨h1, h2⟩ := ih2 w hw c hc
        exact ⟨List.mem_cons_of_mem _ h1, h2⟩

theorem splitAux_cover (sep : Char) (s : List Char) :
    ∀ c ∈ s, c = sep ∨ c ∈ (splitAux sep s).1 ∨ ∃ w ∈ (splitAux sep s).2, c ∈ w := by
  induction s with
  | nil => exact fun c hc => absurd hc (List.not_mem_nil c)
  | cons x cs ih =>
    intro c hc
    by_cases h : x = sep
    · subst h
      rw [splitAux_cons_sep]
      rcases List.mem_cons.mp hc with rfl | hc'
      · exact Or.inl rfl
      · rcases ih c hc' with h1 | h2 | ⟨w, hw, hcw⟩
        · exact Or.inl h1
        · exact Or.inr (Or.inr ⟨_, List.mem_cons_self _ _, h2⟩)
        · exact Or.inr (Or.inr ⟨w, List.mem_cons_of_mem _ hw, hcw⟩)
    · rw [splitAux_cons_ne h]
      rcases List.mem_cons.mp hc with rfl | hc'
      · exact Or.inr (Or.inl (List.mem_cons_self _ _))
      · rcases ih c hc' with h1 | h2 | ⟨w, hw, hcw⟩
        · exact Or.inl h1
        · exact Or.inr (Or.inl (List.mem_cons_of_mem _ h2))
        · exact Or.inr (Or.inr ⟨w, hw, hcw⟩)

theorem splitAux_snd_nil_iff {sep : Char} {s : List Char} :
    (splitAux sep s).2 = [] ↔ goContains sep s = false := by
  induction s with
  | nil => simp [splitAux, goContains]
  | cons x cs ih =>
    by_cases h : x = sep
    · subst h; rw [splitAux_cons_sep]; simp [goContains]
    · rw [splitAux_cons_ne h]; simp [goContains, h, ih]

theorem goSplit_two_le_iff {sep : Char} {s : List Char} :
    2 ≤ (goSplitOnChar sep s).length ↔ goContains sep s = true := by
  rw [goSplitOnChar, List.length_cons]
  constructor
  · intro h2
    by_contra hc
    rw [Bool.not_eq_true] at hc
    rw [splitAux_snd_nil_iff.mpr hc] at h2
    simp at h2
  · intro hc
    cases hsnd : (splitAux sep s).2 with
    | nil => rw [splitAux_snd_nil_iff.mp hsnd] at hc; cases hc
    | cons a as => simp [hsnd]

theorem joinTail_getLast (sep : Char) :
    ∀ (ws : List (List Char)) (w : List Char), (∀ u ∈ ws, u ≠ []) →
      (w ++ joinTail sep ws).getLast? = ((w :: ws).getLastD []).getLast? := by
  intro ws
  induction ws with
  | nil => intro w _; simp [joinTail]
  | cons u us ih =>
    intro w hne
    have hu : u ≠ [] := hne u (List.mem_cons_self _ _)
    have hus : ∀ v ∈ us, v ≠ [] := fun v hv => hne v (List.mem_cons_of_mem _ hv)
    have hx : u ++ joinTail sep us ≠ [] := fun hc => hu (List.append_eq_nil.mp hc).1
    obtain ⟨a, ha⟩ : ∃ a, (u ++ joinTail sep us).getLast? = some a := by
      cases hgl : (u ++ joinTail sep us).getLast? with
      | none =>
        have hs := List.getLast?_isSome.mpr hx
        rw [hgl] at hs
        cases hs
      | some a => exact ⟨a, rfl⟩
    show (w ++ (sep :: (u ++ joinTail sep us))).getLast?
        = ((w :: u :: us).getLastD []).getLast?
    rw [List.getLast?_append]
    have hsx : (sep :: (u ++ joinTail sep us)).getLast? = some a := by
      cases hxeq : u ++ joinTail sep us with
      | nil => exact absurd hxeq hx
      | cons b bs =>
        rw [hxeq] at ha
        rw [List.getLast?_cons_cons]
        exact ha
    rw [hsx]
    have hIH := ih u hus
    rw [ha] at hIH
    have hD : ((w :: u :: us).getLastD []) = ((u :: us).getLastD []) := by
      rw [List.getLastD_eq_getLast?, List.getLastD_eq_getLast?,
        List.getLast?_cons_cons]
    rw [hD, ← hIH]
    rfl

theorem goIsSpace_not_label {c : Char} (h : goIsSpace c = true) :
    isLabelChar c = false ∧ c ≠ '.' := by
  simp only [goIsSpace, Bool.or_eq_true, decide_eq_true_eq] at h
  rcases h with ((((rfl | rfl) | rfl) | rfl) | rfl) | rfl <;> exact ⟨by decide, by decide⟩

theorem validLabel_charset {l : List Char} (h : validLabel l = true) :
    ∀ c ∈ l, isLabelChar c = true := by
  simp only [validLabel, Bool.and_eq_true] at h
  exact List.all_eq_true.mp h.2

theorem valid_labels_charset {s : List Char}
    (hall : (goSplitOnChar '.' s).all validLabel = true) :
    ∀ c ∈ s, c = '.' ∨ isLabelChar c = true := by
  intro c hc
  rcases splitAux_cover '.' s c hc with h1 | h2 | ⟨w, hw, hcw⟩
  · exact Or.inl h1
  · have hmem : (splitAux '.' s).1 ∈ goSplitOnChar '.' s := List.mem_cons_self _ _
    exact Or.inr (validLabel_charset (List.all_eq_true.mp hall _ hmem) c h2)
  · have hmem : w ∈ goSplitOnChar '.' s := List.mem_cons_of_mem _ hw
    exact Or.inr (validLabel_charset (List.all_eq_true.mp hall _ hmem) c hcw)

theorem validLabel_iff_spec {l : List Char} :
    validLabel l = true ↔ specLabelOK l = true := by
  have hpre_iff : goStartsWith (strL "-") l = false ↔ ¬ (l.head? = some '-') := by
    rw [show strL "-" = ['-'] from rfl]
    constructor
    · intro h hh
      rw [← goStartsWith_single_iff] at hh
      rw [h] at hh
      cases hh
    · intro h
      cases hs : goStartsWith ['-'] l
      · rfl
      · exact absurd (goStartsWith_single_iff.mp hs) h
  have hsuf_iff : goEndsWith (strL "-") l = false ↔ ¬ (l.getLast? = some '-') := by
    rw [show strL "-" = ['-'] from rfl]
    constructor
    · intro h hh
      rw [← goEndsWith_single_iff] at hh
      rw [h] at hh
      cases hh
    · intro h
      cases hs : goEndsWith ['-'] l
      · rfl
      · exact absurd (goEndsWith_single_iff.mp hs) h
  have hlen1 : ¬ (l.length = 0) ↔ 1 ≤ l.length := by omega
  have hlen2 : ¬ (l.length > maxLabelLength) ↔ l.length ≤ 63 := by
    rw [maxLabelLength]; omega
  simp only [validLabel, specLabelOK, Bool.and_eq_true, Bool.not_eq_true',
    decide_eq_false_iff_not, decide_eq_true_eq, hpre_iff, hsuf_iff, hlen1, hlen2,
    List.all_eq_true, isLabelChar]
  tauto

theorem regexLabel_of_spec {l : List Char} (h : specLabelOK l = true) :
    regexLabelMatch l = true := by
  simp only [specLabelOK, Bool.and_eq_true, decide_eq_true_eq, Bool.not_eq_true',
    decide_eq_false_iff_not, List.all_eq_true] at h
  obtain ⟨⟨⟨⟨hlen1, hlen63⟩, hchars⟩, hhead⟩, hlast⟩ := h
  cases l with
  | nil => simp at hlen1
  | cons c rest =>
    have hc : isAlnumCh c = true := by
      have hcl := hchars c (List.mem_cons_self _ _)
      have hne : c ≠ '-' := fun he => hhead (by rw [List.head?_cons, he])
      simp only [Bool.or_eq_true, decide_eq_true_eq] at hcl
      rcases hcl with (h1 | h2) | h3
      · simp [isAlnumCh, h1]
      · simp [isAlnumCh, h2]
      · exact absurd h3 hne
    cases hgl : rest.getLast? with
    | none => simp [regexLabelMatch, hgl, hc]
    | some cl =>
      have hrne : rest ≠ [] := by
        intro hr; rw [hr] at hgl; cases hgl
      have hconsLast : (c :: rest).getLast? = some cl := by
        cases rest with
        | nil => exact absurd rfl hrne
        | cons b bs => rw [List.getLast?_cons_cons]; exact hgl
      have hclmem : cl ∈ rest := List.mem_of_getLast?_eq_some hgl
      have hclne : cl ≠ '-' := fun he => hlast (he ▸ hconsLast)
      have hcla : isAlnumCh cl = true := by
        have hcl := hchars cl (List.mem_cons_of_mem _ hclmem)
        simp only [Bool.or_eq_true, decide_eq_true_eq] at hcl
        rcases hcl with (h1 | h2) | h3
        · simp [isAlnumCh, h1]
        · simp [isAlnumCh, h2]
        · exact absurd h3 hclne
      have hlen : rest.length ≤ 62 := by
        have := hlen63
        simp only [List.length_cons] at this
        omega
      have hmid : rest.dropLast.all isLabelChar = true := by
        rw [List.all_eq_true]
        intro x hx
        have hxr : x ∈ rest := (List.dropLast_sublist rest).subset hx
        have := hchars x (List.mem_cons_of_mem _ hxr)
        simpa [isLabelChar] using this
      simp [regexLabelMatch, hgl, hc, hcla, hlen, hmid]

theorem elemB_of_mem {d : List Char} {l : List (List Char)} (h : d ∈ l) :
    elemB d l = true := by
  induction l with
  | nil => exact absurd h (List.not_mem_nil d)
  | cons x xs ih =>
    rcases List.mem_cons.mp h with rfl | h'
    · simp [elemB]
    · simp [elemB, ih h']

theorem ValidateDNS_err_eq_none (st : ValidatorState) (now : Nat)
    (d : List Char) (ans : ResolverAnswers) :
    (ValidateDNS st now d ans).err = none := by
  rw [ValidateDNS]
  split
  · split
    · split
      · rfl
      · rfl
    · rfl
  · rfl

theorem cacheFind_insert_self (cache : List (List Char × Bool × Nat))
    (d : List Char) (v : Bool) (ts : Nat) :
    cacheFind (cacheInsert cache d v ts) d = some (v, ts) := by
  induction cache with
  | nil => simp [cacheInsert, cacheFind]
  | cons e rest ih =>
    obtain ⟨k, ev, et⟩ := e
    by_cases h : k = d
    · simp [cacheInsert, cacheFind, h]
    · simp [cacheInsert, cacheFind, h, ih]

/-! ## Claim theorems -/

/-- C1: `ParseDomain` maps the spec's example inputs to the spec's example
outputs: the URL, hosts-file, AdBlock and FQDN forms of `example.com` all
normalize to `"example.com"`, and the AdBlock exception `@@||example.com^`
is rejected (empty result - exceptions are never blocklist entries). -/
theorem parseDomain_spec_examples :
    ParseDomain (strL "https://Example.com/path") = strL "example.com"
    ∧ ParseDomain (strL "0.0.0.0 example.com") = strL "example.com"
    ∧ ParseDomain (strL "||example.com^") = strL "example.com"
    ∧ ParseDomain (strL "example.com.") = strL "example.com"
    ∧ ParseDomain (strL "@@||example.com^") = [] := by
  refine ⟨by decide, by decide, by decide, by decide, by decide⟩

/-- C6 counterexample: HTTP status 204 lies in the 2xx success class, yet
`fetchAttempt` treats the attempt as failed - the code accepts only
status 200 (`http.StatusOK`), not the whole 2xx class. -/
theorem fetchAttempt_2xx_counterexample :
    exceptOk (fetchAttemptResponse 204 []) = false ∧ 200 ≤ 204 ∧ 204 ≤ 299 := by
  refine ⟨by decide, by decide, by decide⟩

/-- C6 (amended): a fetch attempt fails because of the HTTP status exactly
when the response status is not 200 OK; every 200 response is treated as a
successful attempt and its body is parsed for domains. -/
theorem fetchAttempt_status_200_only :
    (∀ (status : Nat) (body : List (List Char)),
      exceptOk (fetchAttemptResponse status body) = decide (status = 200))
    ∧ (∀ body : List (List Char),
      fetchAttemptResponse 200 body = .ok (parseBodyLines body)) := by
  constructor
  · intro status body
    by_cases h : status = 200
    · simp [fetchAttemptResponse, exceptOk, h]
    · simp [fetchAttemptResponse, exceptOk, h]
  · intro body
    simp [fetchAttemptResponse]

/-- C7: `ValidateFull` runs DNS validation first and reaches the HTTP stage
exactly when DNS validation passed; the final boolean is the HTTP outcome
(gated by DNS), and the returned error is always nil - individual lookup
errors collapse into the boolean and are never surfaced. -/
theorem validateFull_gating :
    ∀ (st : ValidatorState) (now : Nat) (domain : List Char)
      (ans : ResolverAnswers) (https http : Option Nat),
      (ValidateFull st now domain ans https http).err = none
      ∧ (ValidateFull st now domain ans https http).ranHTTP
          = (ValidateDNS st now domain ans).valid
      ∧ (ValidateFull st now domain ans https http).valid
          = ((ValidateDNS st now domain ans).valid && (ValidateHTTP https http).1) := by
  intro st now domain ans https http
  have herr := ValidateDNS_err_eq_none st now domain ans
  cases hv : (ValidateDNS st now domain ans).valid <;>
    simp [ValidateFull, herr, hv]

/-- C3: in every run the output set is a subset of the fetched domain set,
and with validation mode none (DNS and HTTP both disabled) the output
equals the fetched set exactly. -/
theorem validation_subset :
    ∀ (enableDNS enableHTTP : Bool)
      (fullRes dnsRes : List Char → Bool × Option Unit)
      (allDomains : List (List Char)),
      (pipelineValidDomains enableDNS enableHTTP fullRes dnsRes allDomains).all
        (fun d => elemB d allDomains) = true
      ∧ pipelineValidDomains false false fullRes dnsRes allDomains = allDomains := by
  intro enableDNS enableHTTP fullRes dnsRes allDomains
  constructor
  · rw [List.all_eq_true]
    intro d hd
    apply elemB_of_mem
    rw [pipelineValidDomains] at hd
    split at hd
    · exact List.mem_of_mem_filter hd
    · exact hd
  · simp [pipelineValidDomains]

/-- C9: if the fetch phase produces zero domains across all sources, the
pipeline reports the fatal "no domains found" condition and terminates:
no validation runs and no output is produced. -/
theorem run_zero_domains_fatal
    (results : List (Except FetchError (List (List Char))))
    (enableDNS enableHTTP : Bool)
    (fullRes dnsRes : List Char → Bool × Option Unit)
    (h : collectDomains results = []) :
    runAggregation results enableDNS enableHTTP fullRes dnsRes
      = .error .noDomainsFound := by
  simp [runAggregation, h]

/-- C9 witness: a single source answering HTTP 404 on all three retry
attempts yields an errored fetch, an empty domain set, and the fatal
outcome. -/
theorem run_zero_domains_fatal_witness :
    runAggregation
      [(Fetch (fun _ => .error (.httpStatus 404)) (fun _ => 0) (fun _ => false) 3).result]
      true false (fun _ => (false, none)) (fun _ => (false, none))
      = .error .noDomainsFound :=
  run_zero_domains_fatal _ _ _ _ _ rfl

/-- C4: with the result cache enabled, a `ValidateDNS` call within the TTL
window after a first (caching) call issues no lookups, returns the cached
boolean and leaves the state unchanged; a call after the TTL has expired
ignores the stale entry, performs a fresh lookup (3 resolver queries) and
overwrites the entry with the new outcome and the current timestamp. -/
theorem validateDNS_cache (st0 : ValidatorState) (d : List Char)
    (ans1 ans2 ans3 : ResolverAnswers) (t1 t2 t3 : Nat)
    (hc : st0.useCache = true) (h0 : cacheFind st0.cache d = none)
    (h12 : t2 - t1 < st0.cacheTTL) (h13 : ¬ (t3 - t1 < st0.cacheTTL)) :
    ValidateDNS (ValidateDNS st0 t1 d ans1).state t2 d ans2
      = ⟨(ValidateDNS st0 t1 d ans1).valid, none,
         (ValidateDNS st0 t1 d ans1).state, 0⟩
    ∧ ValidateDNS (ValidateDNS st0 t1 d ans1).state t3 d ans3
      = ⟨dnsLookupValid d ans3, none,
         { (ValidateDNS st0 t1 d ans1).state with
             cache := cacheInsert (ValidateDNS st0 t1 d ans1).state.cache d
               (dnsLookupValid d ans3) t3 },
         3⟩ := by
  have hr1 : ValidateDNS st0 t1 d ans1
      = ⟨dnsLookupValid d ans1, none,
         { st0 with cache := cacheInsert st0.cache d (dnsLookupValid d ans1) t1 },
         3⟩ := by
    simp [ValidateDNS, hc, h0, dnsFreshLookup]
  have hfind : cacheFind (ValidateDNS st0 t1 d ans1).state.cache d
      = some (dnsLookupValid d ans1, t1) := by
    rw [hr1]
    exact cacheFind_insert_self _ _ _ _
  have huse : (ValidateDNS st0 t1 d ans1).state.useCache = true := by
    rw [hr1]; exact hc
  have httl : (ValidateDNS st0 t1 d ans1).state.cacheTTL = st0.cacheTTL := by
    rw [hr1]
  constructor
  · rw [hr1]
    simp [ValidateDNS, hc, cacheFind_insert_self, h12]
  · rw [hr1]
    simp [ValidateDNS, hc, cacheFind_insert_self, h13, dnsFreshLookup]

/-- C4 witness: concrete two-call runs against a fresh caching validator
(TTL 300s): the second call at t=100 is served from cache with zero
lookups; the call at t=400 re-resolves and overwrites the entry. -/
theorem validateDNS_cache_witness :
    ValidateDNS (ValidateDNS (NewValidator true) 0 (strL "a.com")
        ⟨some [1], none, none⟩).state 100 (strL "a.com") ⟨none, some [2], none⟩
      = ⟨true, none,
         { cache := [(strL "a.com", true, 0)], cacheTTL := 300, useCache := true },
         0⟩
    ∧ ValidateDNS (ValidateDNS (NewValidator true) 0 (strL "a.com")
        ⟨some [1], none, none⟩).state 400 (strL "a.com") ⟨none, none, none⟩
      = ⟨false, none,
         { cache := [(strL "a.com", false, 400)], cacheTTL := 300, useCache := true },
         3⟩ :=
  validateDNS_cache (NewValidator true) (strL "a.com")
    ⟨some [1], none, none⟩ ⟨none, some [2], none⟩ ⟨none, none, none⟩
    0 100 400 rfl rfl (by decide) (by decide)

theorem fetchLoop_error_step
    {res : Nat → Except FetchError (List (List Char))} {jit : Nat → Nat}
    {canc : Nat → Bool} {n r attempt : Nat} {lastE e : FetchError}
    (hres : res attempt = .error e) :
    fetchLoop res jit canc n (r + 1) attempt lastE
      = if r = 0 then ⟨.error (.failedAfter n e), 1, []⟩
        else if canc attempt then ⟨.error .ctxCanceled, 1, []⟩
        else
          let rr := fetchLoop res jit canc n r (attempt + 1) e
          ⟨rr.result, rr.attemptsMade + 1,
           sleepNanos attempt (jit attempt) :: rr.waits⟩ := by
  rw [fetchLoop, hres]

theorem fetchLoop_all_fail
    (res : Nat → Except FetchError (List (List Char))) (jit : Nat → Nat)
    (canc : Nat → Bool) (n : Nat) (errOf : Nat → FetchError)
    (hfail : ∀ k, res k = .error (errOf k)) (hcanc : ∀ k, canc k = false) :
    ∀ (remaining attempt : Nat) (lastE : FetchError), 1 ≤ remaining →
      fetchLoop res jit canc n remaining attempt lastE
        = ⟨.error (.failedAfter n (errOf (attempt + remaining - 1))), remaining,
           backoffWaits jit (remaining - 1) attempt⟩ := by
  intro remaining
  induction remaining with
  | zero => intro attempt lastE h; omega
  | succ r ih =>
    intro attempt lastE _
    rw [fetchLoop_error_step (hfail attempt)]
    by_cases hr : r = 0
    · subst hr
      rw [if_pos rfl]
      simp [backoffWaits]
    · rw [if_neg hr, if_neg (by rw [hcanc attempt]; exact Bool.false_ne_true)]
      obtain ⟨r', rfl⟩ : ∃ r', r = r' + 1 := ⟨r - 1, by omega⟩
      rw [ih (attempt + 1) (errOf attempt) (by omega)]
      have harith : attempt + 1 + (r' + 1) - 1 = attempt + (r' + 1 + 1) - 1 := by omega
      simp only [harith, Nat.add_sub_cancel]
      rw [backoffWaits]

theorem fetchLoop_canceled
    (res : Nat → Except FetchError (List (List Char))) (jit : Nat → Nat)
    (canc : Nat → Bool) (n : Nat) (errOf : Nat → FetchError)
    (hfail : ∀ k, res k = .error (errOf k)) :
    ∀ (remaining attempt j : Nat) (lastE : FetchError),
      attempt ≤ j → j + 2 ≤ attempt + remaining →
      (∀ k, k < j → canc k = false) → canc j = true →
      fetchLoop res jit canc n remaining attempt lastE
        = ⟨.error .ctxCanceled, j - attempt + 1, backoffWaits jit (j - attempt) attempt⟩ := by
  intro remaining
  induction remaining with
  | zero => intro attempt j lastE h1 h2 _ _; omega
  | succ r ih =>
    intro attempt j lastE h1 h2 hbefore hj
    rw [fetchLoop_error_step (hfail attempt)]
    have hr : r ≠ 0 := by omega
    rw [if_neg hr]
    by_cases heq : attempt = j
    · subst heq
      rw [if_pos hj]
      simp [Nat.sub_self, backoffWaits]
    · have hlt : attempt < j := by omega
      rw [if_neg (by rw [hbefore attempt hlt]; exact Bool.false_ne_true)]
      rw [ih (attempt + 1) j (errOf attempt) (by omega) (by omega) hbefore hj]
      have h3 : j - (attempt + 1) + 1 + 1 = j - attempt + 1 := by omega
      have h4 : j - attempt = (j - (attempt + 1)) + 1 := by omega
      simp only [h3]
      rw [h4, backoffWaits]

/-- C5: a fetcher configured with `n` retry attempts against an endpoint
where every attempt fails makes exactly `n` attempts and returns an error
wrapping the last attempt's failure, having waited between attempts
according to the backoff schedule (base 1s doubling per attempt, plus the
drawn jitter, capped at 30s per wait - `sleepNanos`/`backoffWaits`); and if
the context is cancelled during the wait after some attempt `j < n`, `Fetch`
returns the context's error immediately after `j` attempts. -/
theorem fetch_retry_backoff (n : Nat)
    (res : Nat → Except FetchError (List (List Char)))
    (errOf : Nat → FetchError) (jit : Nat → Nat) (canc : Nat → Bool)
    (hn : 1 ≤ n) (hfail : ∀ k, res k = .error (errOf k)) :
    ((∀ k, canc k = false) →
      Fetch res jit canc n
        = ⟨.error (.failedAfter n (errOf n)), n, backoffWaits jit (n - 1) 1⟩)
    ∧ (∀ j, 1 ≤ j → j < n → (∀ k, k < j → canc k = false) → canc j = true →
      Fetch res jit canc n
        = ⟨.error .ctxCanceled, j, backoffWaits jit (j - 1) 1⟩) := by
  constructor
  · intro hcanc
    rw [Fetch, fetchLoop_all_fail res jit canc n errOf hfail hcanc n 1 .requestFailed hn]
    have h1 : 1 + n - 1 = n := by omega
    rw [h1]
  · intro j hj1 hjn hbefore hj
    rw [Fetch, fetchLoop_canceled res jit canc n errOf hfail n 1 j .requestFailed
      (by omega) (by omega) hbefore hj]
    have h1 : j - 1 + 1 = j := by omega
    rw [h1]

/-- C5 witness: three attempts against a permanent HTTP 404 with zero
jitter and no cancellation: exactly 3 attempts, the wrapped last error,
and waits of 1s and 2s. -/
theorem fetch_retry_backoff_witness :
    Fetch (fun _ => .error (.httpStatus 404)) (fun _ => 0) (fun _ => false) 3
      = ⟨.error (.failedAfter 3 (.httpStatus 404)), 3, [1000000000, 2000000000]⟩ :=
  (fetch_retry_backoff 3 (fun _ => .error (.httpStatus 404))
    (fun _ => .httpStatus 404) (fun _ => 0) (fun _ => false)
    (by decide) (fun _ => rfl)).1 (fun _ => rfl)

theorem keptLines_nil : keptLines [] = [] := rfl

theorem keptLines_cons (raw : List Char) (rest : List (List Char)) :
    keptLines (raw :: rest)
      = if skipSourceLine (goTrimSpace raw) then keptLines rest
        else goTrimSpace raw :: keptLines rest := by
  by_cases h : skipSourceLine (goTrimSpace raw)
  · simp [keptLines, List.filter_cons, h]
  · simp [keptLines, List.filter_cons, h]

theorem loadURLsAux_ok {lines : List (List Char)}
    (hall : (keptLines lines).all goodURL = true) :
    ∀ n : Nat, loadURLsAux lines n = .ok (keptLines lines) := by
  induction lines with
  | nil => intro n; rfl
  | cons raw rest ih =>
    intro n
    rw [keptLines_cons] at hall ⊢
    by_cases h : skipSourceLine (goTrimSpace raw)
    · rw [if_pos h] at hall ⊢
      rw [loadURLsAux, if_pos h]
      exact ih hall (n + 1)
    · rw [if_neg h] at hall ⊢
      rw [List.all_cons, Bool.and_eq_true] at hall
      rw [loadURLsAux, if_neg h, if_neg (by rw [hall.1]; simp)]
      rw [ih hall.2 (n + 1)]

theorem loadURLsAux_bad {lines : List (List Char)}
    (hbad : (keptLines lines).all goodURL = false) :
    ∀ n : Nat, ∃ k l, loadURLsAux lines n = .error (.invalidURL k l) := by
  induction lines with
  | nil => intro n; rw [keptLines_nil] at hbad; cases hbad
  | cons raw rest ih =>
    intro n
    rw [keptLines_cons] at hbad
    by_cases h : skipSourceLine (goTrimSpace raw)
    · rw [if_pos h] at hbad
      rw [loadURLsAux, if_pos h]
      exact ih hbad (n + 1)
    · rw [if_neg h] at hbad
      rw [List.all_cons] at hbad
      rw [loadURLsAux, if_neg h]
      by_cases hg : goodURL (goTrimSpace raw) = true
      · rw [hg, Bool.true_and] at hbad
        rw [if_neg (by rw [hg]; simp)]
        obtain ⟨k, l, hkl⟩ := ih hbad (n + 1)
        exact ⟨k, l, by rw [hkl]⟩
      · rw [if_pos (by rw [Bool.not_eq_true] at hg; rw [hg]; rfl)]
        exact ⟨n + 1, goTrimSpace raw, rfl⟩

/-- C8: loading the source file skips blank lines and `#` comments and
otherwise succeeds exactly when at least one line survives and every
surviving (trimmed) line starts with `http://` or `https://`, returning
those lines in file order; any other surviving line - or an empty
surviving set - fails the whole load (no URL list is produced). -/
theorem loadURLs_characterization :
    ∀ lines : List (List Char),
      exceptValue (loadURLs lines)
        = if !(keptLines lines).isEmpty && (keptLines lines).all goodURL
          then some (keptLines lines) else none := by
  intro lines
  by_cases hall : (keptLines lines).all goodURL = true
  · rw [loadURLs, loadURLsAux_ok hall 0]
    cases hk : keptLines lines with
    | nil => simp [exceptValue, hk]
    | cons a as =>
      rw [hk] at hall
      simp [exceptValue, hk, hall]
  · rw [Bool.not_eq_true] at hall
    obtain ⟨k, l, hkl⟩ := loadURLsAux_bad hall 0
    rw [loadURLs, hkl]
    simp [exceptValue, hall]

/-- C2: `IsValidDomain` agrees exactly with the spec's characterization:
length 3-253, at least one dot, at least two dot-separated labels each
1-63 characters of letters/digits/hyphens without leading or trailing
hyphen, and a TLD label of at least 2 alphabetic characters; in
particular the spec's three rejection examples are rejected. -/
theorem isValidDomain_spec :
    (∀ s : List Char, IsValidDomain s = specValidDomain s)
    ∧ IsValidDomain (strL "-bad.com") = false
    ∧ IsValidDomain (strL "a") = false
    ∧ IsValidDomain (List.replicate 300 'a' ++ strL ".com") = false := by
  refine ⟨?_, by decide, by decide, by decide⟩
  intro s
  rw [Bool.eq_iff_iff]
  constructor
  · intro h
    simp only [IsValidDomain, Bool.and_eq_true] at h
    obtain ⟨⟨⟨⟨⟨⟨⟨⟨⟨⟨⟨⟨⟨h1, h2⟩, h3⟩, h4⟩, h5⟩, h6⟩, h7⟩, h8⟩, h9⟩, h10⟩,
      h11⟩, h12⟩, h13⟩, h14⟩ := h
    simp only [specValidDomain, Bool.and_eq_true]
    refine ⟨⟨⟨⟨⟨⟨h2, h3⟩, h4⟩, h11⟩, ?_⟩, h13⟩, ?_⟩
    · exact List.all_eq_true.mpr fun l hl =>
        validLabel_iff_spec.mp (List.all_eq_true.mp h12 l hl)
    · simp only [domainRegexMatch, Bool.and_eq_true] at h14
      have htm := h14.2
      simp only [regexTLDMatch, Bool.and_eq_true] at htm
      exact htm.2
  · intro h
    simp only [specValidDomain, Bool.and_eq_true] at h
    obtain ⟨⟨⟨⟨⟨⟨hmin, hmax⟩, hdot⟩, h2lab⟩, hlabels⟩, htld2⟩, htlda⟩ := h
    have hlabels' : (goSplitOnChar '.' s).all validLabel = true :=
      List.all_eq_true.mpr fun l hl =>
        validLabel_iff_spec.mpr (List.all_eq_true.mp hlabels l hl)
    have hchar : ∀ c ∈ s, c = '.' ∨ isLabelChar c = true :=
      valid_labels_charset hlabels'
    have hnc : ∀ c : Char, isLabelChar c = false → c ≠ '.' →
        goContains c s = false := by
      intro c hcf hcd
      cases hg : goContains c s with
      | false => rfl
      | true =>
        rcases hchar c (goContains_iff_mem.mp hg) with hc1 | hc2
        · exact absurd hc1 hcd
        · rw [hcf] at hc2; cases hc2
    have hlen3 : 3 ≤ s.length := of_decide_eq_true hmin
    have hlab_ne : ∀ u ∈ goSplitOnChar '.' s, u ≠ [] := by
      intro u hu hnil
      have hspec := List.all_eq_true.mp hlabels _ hu
      rw [hnil] at hspec
      simp [specLabelOK] at hspec
    have htld_ne : ((goSplitOnChar '.' s).getLastD []) ≠ [] := by
      intro hnil
      rw [hnil] at htld2
      have := of_decide_eq_true htld2
      simp at this
    obtain ⟨cl, hcl⟩ : ∃ cl, ((goSplitOnChar '.' s).getLastD []).getLast? = some cl := by
      cases hgl : ((goSplitOnChar '.' s).getLastD []).getLast? with
      | none =>
        have hs := List.getLast?_isSome.mpr htld_ne
        rw [hgl] at hs
        cases hs
      | some a => exact ⟨a, rfl⟩
    have hslast : s.getLast? = some cl := by
      conv_lhs => rw [← splitAux_join '.' s]
      rw [joinTail_getLast '.' (splitAux '.' s).2 (splitAux '.' s).1
        (fun u hu => hlab_ne u (List.mem_cons_of_mem _ hu))]
      exact hcl
    have hcl_alpha : isAlphaCh cl = true :=
      List.all_eq_true.mp htlda cl (List.mem_of_getLast?_eq_some hcl)
    simp only [IsValidDomain, Bool.and_eq_true]
    refine ⟨⟨⟨⟨⟨⟨⟨⟨⟨⟨⟨⟨⟨?_, hmin⟩, hmax⟩, hdot⟩, ?_⟩, ?_⟩, ?_⟩, ?_⟩, ?_⟩,
      ?_⟩, h2lab⟩, hlabels'⟩, htld2⟩, ?_⟩
    · cases s with
      | nil => simp at hlen3
      | cons a as => rfl
    · rw [hnc ' ' (by decide) (by decide)]; rfl
    · rw [hnc '\t' (by decide) (by decide)]; rfl
    · cases hs : goStartsWith (strL "-") s with
      | false => rfl
      | true =>
        exfalso
        have hh := goStartsWith_single_iff.mp
          (by rw [show strL "-" = ['-'] from rfl] at hs; exact hs)
        cases s with
        | nil => cases hh
        | cons c cs =>
          rw [List.head?_cons, Option.some.injEq] at hh
          subst hh
          have hsplit := @splitAux_cons_ne '.' '-' cs (show ¬ '-' = '.' by decide)
          have hfst : ('-' :: (splitAux '.' cs).1) ∈ goSplitOnChar '.' ('-' :: cs) := by
            rw [goSplitOnChar, hsplit]
            exact List.mem_cons_self _ _
          have hspec := List.all_eq_true.mp hlabels _ hfst
          simp only [specLabelOK, Bool.and_eq_true, Bool.not_eq_true',
            decide_eq_false_iff_not] at hspec
          exact hspec.1.2 rfl
    · cases hs : goEndsWith (strL "-") s with
      | false => rfl
      | true =>
        exfalso
        have hh := goEndsWith_single_iff.mp
          (by rw [show strL "-" = ['-'] from rfl] at hs; exact hs)
        rw [hslast, Option.some.injEq] at hh
        rw [hh] at hcl_alpha
        exact absurd hcl_alpha (by decide)
    · cases hs : goStartsWith (strL ".") s with
      | false => rfl
      | true =>
        exfalso
        have hh := goStartsWith_single_iff.mp
          (by rw [show strL "." = ['.'] from rfl] at hs; exact hs)
        cases s with
        | nil => cases hh
        | cons c cs =>
          rw [List.head?_cons, Option.some.injEq] at hh
          subst hh
          have hfst : ([] : List Char) ∈ goSplitOnChar '.' ('.' :: cs) := by
            rw [goSplitOnChar, splitAux_cons_sep]
            exact List.mem_cons_self _ _
          exact hlab_ne [] hfst rfl
    · cases hs : goEndsWith (strL ".") s with
      | false => rfl
      | true =>
        exfalso
        have hh := goEndsWith_single_iff.mp
          (by rw [show strL "." = ['.'] from rfl] at hs; exact hs)
        rw [hslast, Option.some.injEq] at hh
        rw [hh] at hcl_alpha
        exact absurd hcl_alpha (by decide)
    · simp only [domainRegexMatch, Bool.and_eq_true]
      refine ⟨⟨h2lab, ?_⟩, ?_⟩
      · exact List.all_eq_true.mpr fun l hl =>
          regexLabel_of_spec (List.all_eq_true.mp hlabels l
            ((List.dropLast_sublist _).subset hl))
      · simp only [regexTLDMatch, Bool.and_eq_true]
        exact ⟨htld2, htlda⟩

theorem not_startsWith_of_bad {s pat : List Char}
    (hchar : ∀ c ∈ s, c = '.' ∨ isLabelChar c = true)
    {c : Char} (hc : c ∈ pat) (hcf : isLabelChar c = false) (hcd : c ≠ '.') :
    goStartsWith pat s = false := by
  cases hs : goStartsWith pat s with
  | false => rfl
  | true =>
    exfalso
    have hmem := goStartsWith_mem hs c hc
    rcases hchar c hmem with h1 | h2
    · exact hcd h1
    · rw [hcf] at h2; cases h2

theorem not_contains_of_bad {s : List Char}
    (hchar : ∀ c ∈ s, c = '.' ∨ isLabelChar c = true)
    {c : Char} (hcf : isLabelChar c = false) (hcd : c ≠ '.') :
    goContains c s = false := by
  cases hg : goContains c s with
  | false => rfl
  | true =>
    exfalso
    rcases hchar c (goContains_iff_mem.mp hg) with h1 | h2
    · exact hcd h1
    · rw [hcf] at h2; cases h2

/-- C10: `ParseDomain` is the identity on already-normalized domains: an
all-lowercase string accepted by `IsValidDomain` that does not begin with
`"www."` passes through every branch of `ParseDomain` and `cleanDomain`
unchanged.  (The `www.` exclusion is necessary: the normalizer strips a
leading `www.` even from an otherwise valid domain.) -/
theorem parseDomain_identity (d : List Char)
    (hlow : goToLower d = d)
    (hvalid : IsValidDomain d = true)
    (hwww : goStartsWith (strL "www.") d = false) :
    ParseDomain d = d := by
  simp only [IsValidDomain, Bool.and_eq_true] at hvalid
  obtain ⟨⟨⟨⟨⟨⟨⟨⟨⟨⟨⟨⟨⟨h1, _⟩, _⟩, h4⟩, _⟩, _⟩, _⟩, _⟩, h9⟩, h10⟩, _⟩,
    h12⟩, _⟩, _⟩ := hvalid
  have hchar : ∀ c ∈ d, c = '.' ∨ isLabelChar c = true :=
    valid_labels_charset h12
  have hie : d.isEmpty = false := by rw [Bool.not_eq_true'] at h1; exact h1
  have h9' : goStartsWith (strL ".") d = false := by
    rw [Bool.not_eq_true'] at h9; exact h9
  have h10' : goEndsWith (strL ".") d = false := by
    rw [Bool.not_eq_true'] at h10; exact h10
  have hnospace : ∀ c ∈ d, goIsSpace c = false := by
    intro c hc
    cases hg : goIsSpace c with
    | false => rfl
    | true =>
      exfalso
      obtain ⟨hlf, hld⟩ := goIsSpace_not_label hg
      rcases hchar c hc with hc1 | hc2
      · exact hld hc1
      · rw [hlf] at hc2; cases hc2
  have htrim : goTrimSpace d = d := goTrimSpace_eq_self hnospace
  have htk1 : goTakeUntil '#' d = d :=
    goTakeUntil_eq_self (not_contains_of_bad hchar (by decide) (by decide))
  have htk2 : goTakeUntil ';' d = d :=
    goTakeUntil_eq_self (not_contains_of_bad hchar (by decide) (by decide))
  have hsw1 : goStartsWith (strL "||") d = false :=
    not_startsWith_of_bad hchar (show '|' ∈ strL "||" by decide)
      (by decide) (by decide)
  have hsw2 : goStartsWith (strL "@@||") d = false :=
    not_startsWith_of_bad hchar (show '@' ∈ strL "@@||" by decide)
      (by decide) (by decide)
  have hsw3 : goStartsWith (strL "0.0.0.0 ") d = false :=
    not_startsWith_of_bad hchar (show ' ' ∈ strL "0.0.0.0 " by decide)
      (by decide) (by decide)
  have hsw4 : goStartsWith (strL "127.0.0.1 ") d = false :=
    not_startsWith_of_bad hchar (show ' ' ∈ strL "127.0.0.1 " by decide)
      (by decide) (by decide)
  have hsw5 : goStartsWith (strL "::") d = false :=
    not_startsWith_of_bad hchar (show ':' ∈ strL "::" by decide)
      (by decide) (by decide)
  have hsw6 : goStartsWith (strL "::1") d = false :=
    not_startsWith_of_bad hchar (show ':' ∈ strL "::1" by decide)
      (by decide) (by decide)
  have hsw7 : goStartsWith (strL "http://") d = false :=
    not_startsWith_of_bad hchar (show ':' ∈ strL "http://" by decide)
      (by decide) (by decide)
  have hsw8 : goStartsWith (strL "https://") d = false :=
    not_startsWith_of_bad hchar (show ':' ∈ strL "https://" by decide)
      (by decide) (by decide)
  have hstar : goStartsWith (strL "*.") d = false :=
    not_startsWith_of_bad hchar (show '*' ∈ strL "*." by decide)
      (by decide) (by decide)
  have hcsp : goContains ' ' d = false :=
    not_contains_of_bad hchar (by decide) (by decide)
  have htsl : goTakeUntil '/' d = d :=
    goTakeUntil_eq_self (not_contains_of_bad hchar (by decide) (by decide))
  have htq : goTakeUntil '?' d = d :=
    goTakeUntil_eq_self (not_contains_of_bad hchar (by decide) (by decide))
  have htc : goTakeUntil ':' d = d :=
    goTakeUntil_eq_self (not_contains_of_bad hchar (by decide) (by decide))
  have hclean : cleanDomain d = d := by
    simp only [cleanDomain, htrim, hlow,
      goTrimHead_eq_self hsw7, goTrimHead_eq_self hsw8, goTrimHead_eq_self hwww,
      goTrimTail_eq_self h10', htsl, htq, htc,
      goTrimHead_eq_self hstar, goTrimHead_eq_self h9', hie, h4]
    simp
  simp only [ParseDomain, htk1, htk2, htrim, hie, hsw1, hsw2, hsw3, hsw4,
    hsw5, hsw6, hcsp, hsw7, hsw8, Bool.false_or, Bool.or_self, Bool.false_and,
    Bool.and_false]
  simp [hclean]

/-- C10 witness: the hypotheses hold for `"example.com"` and `ParseDomain`
leaves it unchanged. -/
theorem parseDomain_identity_witness :
    goToLower (strL "example.com") = strL "example.com"
    ∧ IsValidDomain (strL "example.com") = true
    ∧ goStartsWith (strL "www.") (strL "example.com") = false
    ∧ ParseDomain (strL "example.com") = strL "example.com" :=
  ⟨by decide, by decide, by decide,
   parseDomain_identity (strL "example.com") (by decide) (by decide) (by decide)⟩

end Magpie


